import Mathlib

/-!
Verification of the task-decomposition web app (`src/app_streamlit.py`,
`src/auth.py`).

The development shallowly embeds the two source files:

* the response-parsing logic of `get_ai_decomposition`
  (`app_streamlit.py`, lines 61-93), including the exact semantics of the
  three regular expressions it uses (`re.search` of the step-block pattern
  with `re.MULTILINE`, `re.split` on blank lines, and the list-item prefix
  `re.match`), modelled as executable functions on `List Char`;
* the credential-store operations of `auth.py`, modelled over a list-backed
  store, with an explicit exception oracle so that the `try/except`
  control flow (and hence connection open/close behaviour) is visible.

Strings are modelled as Lean `String`/`List Char`; the Python `\s` class is
modelled by `pySpace`, which lists the white-space code points that the
Python `re` module accepts for text patterns.
-/

/-- The individually listed white-space code points of `\s`. -/
def pySpaceChars : List Char :=
  [' ', '\t', '\n', '\r', '\x0b', '\x0c', '\x1c', '\x1d', '\x1e', '\x1f',
   '\u0085', '\u00a0', '\u1680', '\u2028', '\u2029', '\u202f', '\u205f', '\u3000']

/-- The Python `\s` character class (Unicode text mode): ASCII whitespace,
the file/group/record/unit separators, NEL, NBSP, the Unicode space
separators and the line/paragraph separators. -/
def pySpace (c : Char) : Bool :=
  c ∈ pySpaceChars || ('\u2000' ≤ c && c ≤ '\u200a')

/-- The class `[1-9]` of the step pattern. -/
def isDigit19 (c : Char) : Bool := '1' ≤ c && c ≤ '9'

/-- The class `[*\-+]` of the step pattern. -/
def isBullet (c : Char) : Bool := c = '*' || c = '-' || c = '+'

/-- The list-marker alternation `(?:[1-9][.)]|[*\-+])`: on success returns
the consumed marker characters and the rest of the input. -/
def matchMarker : List Char → Option (List Char × List Char)
  | c :: d :: rest =>
      if isDigit19 c && (d = '.' || d = ')') then some ([c, d], rest)
      else if isBullet c then some ([c], d :: rest)
      else none
  | [c] => if isBullet c then some ([c], []) else none
  | [] => none

/-- One iteration of the step pattern `\s*(?:[1-9][.)]|[*\-+])\s+.*(?:\n|$)`
(the body of the outer `+`), matched greedily the way the Python engine does:
maximal `\s*`, the marker, maximal `\s+` (at least one character), `.` not
matching newline, and then a literal `'\n'` if present (else end of input,
where `$` matches).  Returns `(consumed, rest)`. -/
def stepItem (l : List Char) : Option (List Char × List Char) :=
  let w := l.takeWhile pySpace
  let l1 := l.dropWhile pySpace
  match matchMarker l1 with
  | none => none
  | some (m, l2) =>
    let sp := l2.takeWhile pySpace
    if sp.isEmpty then none
    else
      let l3 := l2.dropWhile pySpace
      let body := l3.takeWhile (fun c => c ≠ '\n')
      match l3.dropWhile (fun c => c ≠ '\n') with
      | [] => some (w ++ m ++ sp ++ body, [])
      | _ :: rest => some (w ++ m ++ sp ++ body ++ ['\n'], rest)

/-- The outer greedy `+` of the step pattern: as many `stepItem` iterations
as possible.  Returns `(consumed, rest)`; `consumed = []` when no iteration
matches.  Fuel-driven; every successful iteration consumes at least one
character, so fuel `l.length + 1` never truncates. -/
def stepRun : Nat → List Char → List Char × List Char
  | 0, l => ([], l)
  | fuel + 1, l =>
    match stepItem l with
    | none => ([], l)
    | some (seg, rest) =>
      let r := stepRun fuel rest
      (seg ++ r.1, r.2)

/-- Model of `re.search(step_pattern, text, re.MULTILINE)`: the pattern is anchored
by `^`, so a match can only start at offset 0 or right after a `'\n'`; the
leftmost such start wins and the match is the greedy `stepRun` there.
Returns `group(0)` of the match. -/
def searchStepAux : Nat → List Char → Option (List Char)
  | 0, _ => none
  | fuel + 1, l =>
    if (stepItem l).isSome then some (stepRun (l.length + 1) l).1
    else
      match l.dropWhile (fun c => c ≠ '\n') with
      | [] => none
      | _ :: rest => searchStepAux fuel rest

/-- The span `group(0)` of the step-pattern search, or `none`
when the pattern does not occur (`step_match` in the source). -/
def matchedBlock (l : List Char) : Option (List Char) :=
  searchStepAux (l.length + 1) l

/-- One match of the paragraph delimiter `\n\s*\n` at the head of the
input: a `'\n'`, then greedy `\s*` backtracking until a final `'\n'`, i.e.
the delimiter extends to the last `'\n'` of the maximal white-space run.
Returns the rest of the input after the delimiter. -/
def blankDelim : List Char → Option (List Char)
  | c :: rest =>
    if c = '\n' then
      let run := rest.takeWhile pySpace
      let core := (run.reverse.dropWhile (fun x => x ≠ '\n')).reverse
      if core.isEmpty then none else some (rest.drop core.length)
    else none
  | [] => none

/-- Model of `re.split` on the blank-line pattern: scan left to right, cutting at each
leftmost non-overlapping delimiter match.  `acc` holds the characters of
the current piece in reverse. -/
def splitBlankAux : Nat → List Char → List Char → List (List Char)
  | 0, l, acc => [acc.reverse ++ l]
  | fuel + 1, l, acc =>
    match l with
    | [] => [acc.reverse]
    | c :: rest =>
      match blankDelim (c :: rest) with
      | some rest2 => acc.reverse :: splitBlankAux fuel rest2 []
      | none => splitBlankAux fuel rest (c :: acc)

/-- The pieces produced by `re.split` on the blank-line pattern. -/
def splitBlank (l : List Char) : List (List Char) :=
  splitBlankAux (l.length + 1) l []

/-- The Python `str.strip()`: drop white space from both ends. -/
def pyStripList (l : List Char) : List Char :=
  ((l.dropWhile pySpace).reverse.dropWhile pySpace).reverse

/-- Model of `str.strip()` on `String`. -/
def pyStrip (s : String) : String := ⟨pyStripList s.data⟩

/-- Model of the comprehension `[p.strip() for p in paragraphs if p.strip()]`
(the `paragraphs` list of the source). -/
def paragraphsL (l : List Char) : List (List Char) :=
  (splitBlank l).filterMap fun p =>
    let q := pyStripList p
    if q.isEmpty then none else some q

/-- Model of the list-item-start `re.match` test viewed as a Boolean:
does the text begin (after optional white space) with a list marker
followed by at least one white-space character? -/
def listItemStart (l : List Char) : Bool :=
  match matchMarker (l.dropWhile pySpace) with
  | some (_, l2) =>
    match l2 with
    | c :: _ => pySpace c
    | [] => false
  | none => false

/-- The `{"steps": …, "encouragement": …}` dictionary returned by
`get_ai_decomposition`. -/
structure DecompositionResult where
  steps : String
  encouragement : String
deriving DecidableEq, Repr

/-- The parsing logic of `get_ai_decomposition` (lines 61-93): the
`if/elif/elif/else` chain over `step_match` and `len(paragraphs)`.  The
initial fallback assignments of the source are dead (every branch of the
exhaustive chain assigns both fields), so they do not appear. -/
def decomposeL (l : List Char) : DecompositionResult :=
  let sm := matchedBlock l
  let ps := paragraphsL l
  if sm.isSome ∧ 1 < ps.length then
    let last := ps.getLastD []
    { steps := ⟨pyStripList (sm.getD [])⟩,
      encouragement :=
        if listItemStart last then "Focus on that first step, you can do it!"
        else ⟨last⟩ }
  else if 1 < ps.length then
    { steps := ⟨List.intercalate ['\n', '\n'] ps.dropLast⟩,
      encouragement := ⟨ps.getLastD []⟩ }
  else if ps.length = 1 then
    if sm.isSome then
      { steps := ⟨l⟩, encouragement := "Just taking the first step is progress!" }
    else
      { steps := "No specific steps identified.", encouragement := ⟨l⟩ }
  else
    { steps := ⟨l⟩, encouragement := "Remember to take it one step at a time." }

/-- The decomposer on `String` input (`message_content` of the source). -/
def decompose (s : String) : DecompositionResult := decomposeL s.data

/-- The treatment of the raw completion text in `get_ai_decomposition`: line 58
strips it (`message_content = response…content.strip()`) before the
parsing logic runs. -/
def parseCompletion (raw : String) : DecompositionResult :=
  decompose (pyStrip raw)

/-! ## Credential store (`src/auth.py`)

The SQLite table becomes a list of rows plus an autoincrement counter;
bcrypt is kept abstract as a hash function and a check predicate (its
salting and one-wayness are properties of the external library, not of
this code).  Each operation is a straight-line translation of the Python
body.  Because every claim about the store mentions behaviour on error
paths, the translation is explicit about exceptions: an oracle says which
primitive database/bcrypt call raises, and a raised call transfers control
to the `except` handler of the operation, exactly as in the source.  The
emitted `DbEvent` trace records connection opens and closes. -/

/-- The bcrypt interface used by `auth.py`: `hash_password` and
`verify_password`, kept abstract. -/
structure AuthCfg where
  hash_password : String → String
  verify_password : String → String → Bool

/-- One row of the `users` table. -/
structure UserRow where
  id : Nat
  username : String
  email : String
  password_hash : String
  openai_api_key : Option String
  created_at : Nat
  last_login : Option Nat
deriving DecidableEq, Repr

/-- The `users` table: rows in insertion (rowid) order plus the
autoincrement counter. -/
structure Store where
  rows : List UserRow
  nextId : Nat
deriving DecidableEq, Repr

/-- Connection events recorded by an operation. -/
inductive DbEvent
  | connOpen
  | connClose
deriving DecidableEq, Repr

/-- The primitive calls inside the store operations that can raise. -/
inductive DbStep
  | connect
  | selectUserOrEmail
  | selectUsername
  | selectId
  | selectKey
  | insertUser
  | updateLogin
  | updateKey
  | commitTx
  | closeConn
  | hashPw
  | checkPw
deriving DecidableEq, Repr

/-- An exception oracle: which primitive calls raise. -/
def DbOracle := DbStep → Bool

/-- The oracle under which no primitive call raises. -/
def noFail : DbOracle := fun _ => false

/-- What an operation leaves behind: the event trace, the resulting
store, and the Python return value. -/
structure OpOutcome (α : Type) where
  events : List DbEvent
  store : Store
  result : α
deriving DecidableEq, Repr

/-- The dictionary `auth.py` builds from a fetched row on successful
login and in `get_user_by_id`: exactly the keys `id`, `username`,
`email`, `created_at`, `last_login`, filled from `user[0]`, `user[1]`,
`user[2]`, `user[4]`, `user[5]`.  Under the table schema the columns are
`(id, username, email, password_hash, openai_api_key, created_at,
last_login)`, so `user[4]` is the stored `openai_api_key` and `user[5]`
is `created_at`: the entry named `created_at` actually carries the API
key and the entry named `last_login` carries the creation timestamp. -/
structure UserView where
  id : Nat
  username : String
  email : String
  created_at : Option String
  last_login : Nat
deriving DecidableEq, Repr

/-- Build the returned dictionary from a row, copying `user[4]` and
`user[5]` exactly as the source does. -/
def mkView (r : UserRow) : UserView :=
  { id := r.id, username := r.username, email := r.email,
    created_at := r.openai_api_key, last_login := r.created_at }

/-- The return value of `login_user`: either the user dictionary or a message. -/
inductive LoginResult
  | ok (v : UserView)
  | err (msg : String)
deriving DecidableEq, Repr

/-- Model of `register_user(username, email, password)`.  Uncommitted writes are
rolled back, so the store mutates at `commit`; an exception at any
primitive jumps to the `except` branch, which returns
`(False, "Registration failed")` without closing the connection. -/
def register_user (cfg : AuthCfg) (oracle : DbOracle) (now : Nat) (st : Store)
    (username email password : String) : OpOutcome (Bool × String) :=
  if oracle .connect then ⟨[], st, (false, "Registration failed")⟩ else
  if oracle .selectUserOrEmail then ⟨[.connOpen], st, (false, "Registration failed")⟩ else
  if st.rows.any (fun r => r.username = username || r.email = email) then
    if oracle .closeConn then ⟨[.connOpen], st, (false, "Registration failed")⟩ else
    ⟨[.connOpen, .connClose], st, (false, "Username or email already exists")⟩
  else
    if oracle .hashPw then ⟨[.connOpen], st, (false, "Registration failed")⟩ else
    if oracle .insertUser then ⟨[.connOpen], st, (false, "Registration failed")⟩ else
    if oracle .commitTx then ⟨[.connOpen], st, (false, "Registration failed")⟩ else
    let st1 : Store :=
      { rows := st.rows ++
          [{ id := st.nextId, username := username, email := email,
             password_hash := cfg.hash_password password, openai_api_key := none,
             created_at := now, last_login := none }],
        nextId := st.nextId + 1 }
    if oracle .closeConn then ⟨[.connOpen], st1, (false, "Registration failed")⟩ else
    ⟨[.connOpen, .connClose], st1, (true, "Registration successful")⟩

/-- Set `last_login` on every row whose username matches
(`UPDATE users SET last_login = ? WHERE username = ?`). -/
def setLastLogin (st : Store) (username : String) (now : Nat) : Store :=
  { st with rows := st.rows.map fun r =>
      if r.username = username then { r with last_login := some now } else r }

/-- Model of `login_user(username, password)`.  The returned dictionary
is built from the row fetched *before* the `last_login` update, and its
entries named `created_at` and `last_login` copy `user[4]` and `user[5]`
(see `UserView` for the resulting column offset). -/
def login_user (cfg : AuthCfg) (oracle : DbOracle) (now : Nat) (st : Store)
    (username password : String) : OpOutcome LoginResult :=
  if oracle .connect then ⟨[], st, .err "Login failed"⟩ else
  if oracle .selectUsername then ⟨[.connOpen], st, .err "Login failed"⟩ else
  match st.rows.find? (fun r => r.username = username) with
  | some r =>
    if oracle .checkPw then ⟨[.connOpen], st, .err "Login failed"⟩ else
    if cfg.verify_password password r.password_hash then
      if oracle .updateLogin then ⟨[.connOpen], st, .err "Login failed"⟩ else
      if oracle .commitTx then ⟨[.connOpen], st, .err "Login failed"⟩ else
      let st1 := setLastLogin st username now
      if oracle .closeConn then ⟨[.connOpen], st1, .err "Login failed"⟩ else
      ⟨[.connOpen, .connClose], st1, .ok (mkView r)⟩
    else
      if oracle .closeConn then ⟨[.connOpen], st, .err "Login failed"⟩ else
      ⟨[.connOpen, .connClose], st, .err "Invalid username or password"⟩
  | none =>
      if oracle .closeConn then ⟨[.connOpen], st, .err "Login failed"⟩ else
      ⟨[.connOpen, .connClose], st, .err "Invalid username or password"⟩

/-- Model of `get_user_by_id(user_id)`. -/
def get_user_by_id (oracle : DbOracle) (st : Store) (user_id : Nat) :
    OpOutcome (Option UserView) :=
  if oracle .connect then ⟨[], st, none⟩ else
  if oracle .selectId then ⟨[.connOpen], st, none⟩ else
  if oracle .closeConn then ⟨[.connOpen], st, none⟩ else
  match st.rows.find? (fun r => r.id = user_id) with
  | some r => ⟨[.connOpen, .connClose], st, some (mkView r)⟩
  | none => ⟨[.connOpen, .connClose], st, none⟩

/-- Model of `update_openai_api_key(username, api_key)`. -/
def update_openai_api_key (oracle : DbOracle) (st : Store)
    (username api_key : String) : OpOutcome (Bool × String) :=
  if oracle .connect then ⟨[], st, (false, "Failed to update API key")⟩ else
  if oracle .updateKey then ⟨[.connOpen], st, (false, "Failed to update API key")⟩ else
  if oracle .commitTx then ⟨[.connOpen], st, (false, "Failed to update API key")⟩ else
  let st1 : Store :=
    { st with rows := st.rows.map fun r =>
        if r.username = username then { r with openai_api_key := some api_key } else r }
  if oracle .closeConn then ⟨[.connOpen], st1, (false, "Failed to update API key")⟩ else
  ⟨[.connOpen, .connClose], st1, (true, "API key updated successfully")⟩

/-- Model of `get_openai_api_key(username)`.  A missing row and a row whose key
column is NULL both come back as `None`. -/
def get_openai_api_key (oracle : DbOracle) (st : Store) (username : String) :
    OpOutcome (Option String) :=
  if oracle .connect then ⟨[], st, none⟩ else
  if oracle .selectKey then ⟨[.connOpen], st, none⟩ else
  if oracle .closeConn then ⟨[.connOpen], st, none⟩ else
  match st.rows.find? (fun r => r.username = username) with
  | some r => ⟨[.connOpen, .connClose], st, r.openai_api_key⟩
  | none => ⟨[.connOpen, .connClose], st, none⟩

/-! ## Basic lemmas -/

theorem mkData (s : String) : String.mk s.data = s := rfl

/-- The join of branch (b), written the way the spec words it: the paragraphs
rejoined with exactly one blank line (`"\n\n"`) between consecutive ones. -/
def joinBlankSep : List (List Char) → List Char
  | [] => []
  | [p] => p
  | p :: q :: rest => p ++ '\n' :: '\n' :: joinBlankSep (q :: rest)

theorem intercalate_eq_joinBlankSep :
    ∀ ls : List (List Char), List.intercalate ['\n', '\n'] ls = joinBlankSep ls
  | [] => by simp [joinBlankSep, List.intercalate]
  | [p] => by simp [joinBlankSep, List.intercalate]
  | p :: q :: rest => by
      rw [joinBlankSep, ← intercalate_eq_joinBlankSep (q :: rest)]
      simp [List.intercalate, List.intersperse]

/-- The apostrophe character, written by code point. -/
def apostrophe : String := ⟨[Char.ofNat 39]⟩

/-- The worked example of the spec: two numbered step lines, a blank
line, and an encouragement sentence containing an apostrophe and an em
dash. -/
def exampleRaw : String :=
  "1. Open the file\n2. Read line one\n\nYou" ++ apostrophe ++
    "ve got this — just open it!"

/-- The expected encouragement of the worked example. -/
def exampleEnc : String := "You" ++ apostrophe ++ "ve got this — just open it!"

/-- C1: whenever the step-block pattern matches and more than one
non-empty paragraph exists, `steps` is the matched block stripped of
surrounding whitespace, and `encouragement` is the last paragraph unless
that paragraph itself starts like a list item, in which case it is the
fixed fallback; moreover the worked example of the spec evaluates as stated. -/
theorem claim_C1 (s : String) (blk last : List Char)
    (hm : matchedBlock s.data = some blk)
    (hn : 1 < (paragraphsL s.data).length)
    (hl : (paragraphsL s.data).getLast? = some last) :
    ((decompose s).steps = ⟨pyStripList blk⟩ ∧
      (decompose s).encouragement =
        (if listItemStart last then "Focus on that first step, you can do it!"
         else ⟨last⟩)) ∧
    decompose exampleRaw =
      { steps := "1. Open the file\n2. Read line one", encouragement := exampleEnc } := by
  constructor
  · have hd : (paragraphsL s.data).getLastD [] = last := by
      rw [List.getLastD_eq_getLast?, hl, Option.getD_some]
    simp only [decompose, decomposeL, hm, hd]
    rw [if_pos ⟨rfl, hn⟩]
    exact ⟨rfl, rfl⟩
  · decide

theorem claim_C1_witness :
    matchedBlock ("1. a\n\nGo").data = some ("1. a\n").data ∧
    1 < (paragraphsL ("1. a\n\nGo").data).length ∧
    (paragraphsL ("1. a\n\nGo").data).getLast? = some ("Go").data ∧
    (((decompose "1. a\n\nGo").steps = ⟨pyStripList ("1. a\n").data⟩ ∧
      (decompose "1. a\n\nGo").encouragement =
        (if listItemStart ("Go").data then "Focus on that first step, you can do it!"
         else ⟨("Go").data⟩)) ∧
      decompose exampleRaw =
        { steps := "1. Open the file\n2. Read line one", encouragement := exampleEnc }) :=
  ⟨by decide, by decide, by decide,
    claim_C1 "1. a\n\nGo" ("1. a\n").data ("Go").data (by decide) (by decide) (by decide)⟩

/-- C2: with at least two non-empty paragraphs and no step block, `steps`
is all paragraphs but the last (each already trimmed by construction of
the paragraph list) rejoined with exactly one blank line, and
`encouragement` is the last paragraph exactly. -/
theorem claim_C2 (s : String) (last : List Char)
    (hm : matchedBlock s.data = none)
    (hn : 2 ≤ (paragraphsL s.data).length)
    (hl : (paragraphsL s.data).getLast? = some last) :
    (decompose s).steps = ⟨joinBlankSep (paragraphsL s.data).dropLast⟩ ∧
    (decompose s).encouragement = ⟨last⟩ := by
  have hd : (paragraphsL s.data).getLastD [] = last := by
    rw [List.getLastD_eq_getLast?, hl, Option.getD_some]
  have hn' : 1 < (paragraphsL s.data).length := hn
  simp only [decompose, decomposeL, hm, hd, intercalate_eq_joinBlankSep]
  rw [if_neg (by simp), if_pos hn']
  exact ⟨rfl, rfl⟩

theorem claim_C2_witness :
    matchedBlock ("alpha\n\nbeta").data = none ∧
    2 ≤ (paragraphsL ("alpha\n\nbeta").data).length ∧
    (paragraphsL ("alpha\n\nbeta").data).getLast? = some ("beta").data ∧
    ((decompose "alpha\n\nbeta").steps =
        ⟨joinBlankSep (paragraphsL ("alpha\n\nbeta").data).dropLast⟩ ∧
      (decompose "alpha\n\nbeta").encouragement = ⟨("beta").data⟩) :=
  ⟨by decide, by decide, by decide,
    claim_C2 "alpha\n\nbeta" ("beta").data (by decide) (by decide) (by decide)⟩

/-- C5: when paragraph splitting yields no non-empty paragraph at all (in
particular on the empty string), `steps` is the raw text itself and
`encouragement` is the fixed fallback. -/
theorem claim_C5 (s : String) (h : paragraphsL s.data = []) :
    decompose s = { steps := s, encouragement := "Remember to take it one step at a time." } := by
  simp only [decompose, decomposeL, h]
  rw [if_neg (by simp), if_neg (by simp), if_neg (by simp)]

theorem claim_C5_witness :
    paragraphsL ("").data = [] ∧
    decompose "" = { steps := "", encouragement := "Remember to take it one step at a time." } :=
  ⟨by decide, claim_C5 "" (by decide)⟩

/-! ## Credential-store claims -/

/-- A concrete bcrypt stand-in for witnesses: hashing is the identity and
verification is string equality. -/
def cfg0 : AuthCfg := { hash_password := fun pw => pw, verify_password := fun pw h => pw == h }

/-- A concrete stored row for witnesses. -/
def row0 : UserRow :=
  { id := 1, username := "ann", email := "ann@example.com", password_hash := "pw",
    openai_api_key := none, created_at := 5, last_login := none }

/-- A concrete store for witnesses. -/
def st0 : Store := { rows := [row0], nextId := 2 }

/-- The empty store. -/
def emptyStore : Store := { rows := [], nextId := 1 }

/-- C7: a login whose username is found but whose password fails hash
verification, and a login whose username is absent, return the very same
outcome: identical invalid-credentials result, identical user-facing
message, and an unchanged store — so the caller cannot tell the two
apart. -/
theorem claim_C7 (cfg : AuthCfg) (now1 now2 : Nat) (st : Store)
    (u1 p1 u2 p2 : String) (r : UserRow)
    (h1 : st.rows.find? (fun x => x.username = u1) = some r)
    (h2 : cfg.verify_password p1 r.password_hash = false)
    (h3 : st.rows.find? (fun x => x.username = u2) = none) :
    login_user cfg noFail now1 st u1 p1 = login_user cfg noFail now2 st u2 p2 ∧
    login_user cfg noFail now1 st u1 p1 =
      ⟨[DbEvent.connOpen, DbEvent.connClose], st, .err "Invalid username or password"⟩ := by
  have e1 : login_user cfg noFail now1 st u1 p1 =
      ⟨[DbEvent.connOpen, DbEvent.connClose], st, .err "Invalid username or password"⟩ := by
    simp only [login_user, noFail, Bool.false_eq_true, if_false, h1, h2]
  have e2 : login_user cfg noFail now2 st u2 p2 =
      ⟨[DbEvent.connOpen, DbEvent.connClose], st, .err "Invalid username or password"⟩ := by
    simp only [login_user, noFail, Bool.false_eq_true, if_false, h3]
  exact ⟨e1.trans e2.symm, e1⟩

theorem claim_C7_witness :
    st0.rows.find? (fun x => x.username = "ann") = some row0 ∧
    cfg0.verify_password "wrong" row0.password_hash = false ∧
    st0.rows.find? (fun x => x.username = "bob") = none ∧
    (login_user cfg0 noFail 3 st0 "ann" "wrong" = login_user cfg0 noFail 4 st0 "bob" "x" ∧
      login_user cfg0 noFail 3 st0 "ann" "wrong" =
        ⟨[DbEvent.connOpen, DbEvent.connClose], st0, .err "Invalid username or password"⟩) :=
  ⟨by decide, by decide, by decide,
    claim_C7 cfg0 3 4 st0 "ann" "wrong" "bob" "x" row0 (by decide) (by decide) (by decide)⟩

/-- C8: registration returns the already-exists failure exactly when a
stored row shares the username or the email; otherwise it appends one new
row whose stored password field is the (salted, abstract) hash of the
submitted password; consequently registering the same username a second
time fails. -/
theorem claim_C8 (cfg : AuthCfg) (now now2 : Nat) (st : Store) (u e pw e2 pw2 : String) :
    ((register_user cfg noFail now st u e pw).result =
        (false, "Username or email already exists") ↔
      ∃ r ∈ st.rows, r.username = u ∨ r.email = e) ∧
    ((¬ ∃ r ∈ st.rows, r.username = u ∨ r.email = e) →
      register_user cfg noFail now st u e pw =
        ⟨[DbEvent.connOpen, DbEvent.connClose],
          { rows := st.rows ++
              [{ id := st.nextId, username := u, email := e,
                 password_hash := cfg.hash_password pw, openai_api_key := none,
                 created_at := now, last_login := none }],
            nextId := st.nextId + 1 },
          (true, "Registration successful")⟩ ∧
      (register_user cfg noFail now2
          (register_user cfg noFail now st u e pw).store u e2 pw2).result =
        (false, "Username or email already exists")) := by
  have hany : (st.rows.any (fun r => r.username = u || r.email = e) = true) ↔
      ∃ r ∈ st.rows, r.username = u ∨ r.email = e := by
    simp [List.any_eq_true]
  constructor
  · by_cases h : st.rows.any (fun r => r.username = u || r.email = e) = true
    · simp only [register_user, noFail, Bool.false_eq_true, if_false, if_pos h]
      simpa using hany.mp h
    · simp only [register_user, noFail, Bool.false_eq_true, if_false, if_neg h]
      constructor
      · intro hcontra
        exact absurd (congrArg Prod.fst hcontra) (by simp)
      · intro hex
        exact absurd (hany.mpr hex) h
  · intro hnot
    have h : ¬ st.rows.any (fun r => r.username = u || r.email = e) = true := fun hc =>
      hnot (hany.mp hc)
    have hfirst : register_user cfg noFail now st u e pw =
        ⟨[DbEvent.connOpen, DbEvent.connClose],
          { rows := st.rows ++
              [{ id := st.nextId, username := u, email := e,
                 password_hash := cfg.hash_password pw, openai_api_key := none,
                 created_at := now, last_login := none }],
            nextId := st.nextId + 1 },
          (true, "Registration successful")⟩ := by
      simp only [register_user, noFail, Bool.false_eq_true, if_false, if_neg h]
    refine ⟨hfirst, ?_⟩
    rw [hfirst]
    have hany2 : ((st.rows ++
        [({ id := st.nextId, username := u, email := e,
            password_hash := cfg.hash_password pw, openai_api_key := none,
            created_at := now, last_login := none } : UserRow)]).any
          (fun r => r.username = u || r.email = e2)) = true := by
      simp
    simp only [register_user, noFail, Bool.false_eq_true, if_false]
    rw [if_pos hany2]

theorem claim_C8_witness :
    (¬ ∃ r ∈ emptyStore.rows, r.username = "ann" ∨ r.email = "ann@example.com") ∧
    (register_user cfg0 noFail 5 emptyStore "ann" "ann@example.com" "pw" =
        ⟨[DbEvent.connOpen, DbEvent.connClose],
          { rows := emptyStore.rows ++
              [{ id := emptyStore.nextId, username := "ann", email := "ann@example.com",
                 password_hash := cfg0.hash_password "pw", openai_api_key := none,
                 created_at := 5, last_login := none }],
            nextId := emptyStore.nextId + 1 },
          (true, "Registration successful")⟩ ∧
      (register_user cfg0 noFail 9
          (register_user cfg0 noFail 5 emptyStore "ann" "ann@example.com" "pw").store
          "ann" "other@example.com" "zz").result =
        (false, "Username or email already exists")) :=
  ⟨by simp [emptyStore],
    (claim_C8 cfg0 5 9 emptyStore "ann" "ann@example.com" "pw" "other@example.com" "zz").2
      (by simp [emptyStore])⟩

/-- Oracle for the C9 counterexample: the INSERT raises. -/
def insertRaises : DbOracle := fun s => decide (s = DbStep.insertUser)

/-- C9 counterexample: with a raising INSERT, `register_user` takes the
`except` branch, which returns without closing the connection it opened —
so not every exit path closes the connection. -/
theorem claim_C9_counterexample :
    (register_user cfg0 insertRaises 0 emptyStore "ann" "a@x" "pw").events =
      [DbEvent.connOpen] ∧
    DbEvent.connClose ∉
      (register_user cfg0 insertRaises 0 emptyStore "ann" "a@x" "pw").events := by
  exact ⟨by decide, by decide⟩

/-- C9 amended: each of the five store operations opens exactly one
connection and closes it on every exit path on which no primitive call
raises (success and no-match alike); on a path where a primitive raises
after the connect, the `except` handler returns without closing
(see the counterexample). -/
theorem claim_C9_amended (cfg : AuthCfg) (now : Nat) (st : Store)
    (u e pw k : String) (uid : Nat) :
    (register_user cfg noFail now st u e pw).events = [DbEvent.connOpen, DbEvent.connClose] ∧
    (login_user cfg noFail now st u pw).events = [DbEvent.connOpen, DbEvent.connClose] ∧
    (get_user_by_id noFail st uid).events = [DbEvent.connOpen, DbEvent.connClose] ∧
    (update_openai_api_key noFail st u k).events = [DbEvent.connOpen, DbEvent.connClose] ∧
    (get_openai_api_key noFail st u).events = [DbEvent.connOpen, DbEvent.connClose] := by
  refine ⟨?_, ?_, ?_, ?_, ?_⟩
  · simp only [register_user, noFail, Bool.false_eq_true, if_false]
    split <;> rfl
  · simp only [login_user, noFail, Bool.false_eq_true, if_false]
    split
    · split <;> rfl
    · rfl
  · simp only [get_user_by_id, noFail, Bool.false_eq_true, if_false]
    split <;> rfl
  · simp only [update_openai_api_key, noFail, Bool.false_eq_true, if_false]
  · simp only [get_openai_api_key, noFail, Bool.false_eq_true, if_false]
    split <;> rfl

theorem claim_C9_witness :
    (register_user cfg0 noFail 5 st0 "bob" "b@x" "pw").events =
        [DbEvent.connOpen, DbEvent.connClose] ∧
    (login_user cfg0 noFail 5 st0 "ann" "pw").events =
        [DbEvent.connOpen, DbEvent.connClose] ∧
    (get_user_by_id noFail st0 1).events = [DbEvent.connOpen, DbEvent.connClose] ∧
    (update_openai_api_key noFail st0 "ann" "sk").events =
        [DbEvent.connOpen, DbEvent.connClose] ∧
    (get_openai_api_key noFail st0 "ann").events = [DbEvent.connOpen, DbEvent.connClose] :=
  claim_C9_amended cfg0 5 st0 "ann" "b@x" "pw" "sk" 1

/-- A stored row carrying an API key, exhibiting the column-offset leak. -/
def rowKey : UserRow :=
  { id := 1, username := "ann", email := "ann@example.com", password_hash := "pw",
    openai_api_key := some "sk-secret-key", created_at := 5, last_login := none }

/-- A store holding `rowKey`. -/
def stKey : Store := { rows := [rowKey], nextId := 2 }

/-- C10: the claim fails on the code.  The returned dictionary does have
exactly the keys `id`, `username`, `email`, `created_at`, `last_login`,
but the source copies `user[4]` and `user[5]` into the last two, and
under the schema those columns are `openai_api_key` and `created_at`:
on a store whose row carries the API key `"sk-secret-key"`, a successful
login and a lookup both return that secret to the caller under the
`created_at` key (and the creation time under `last_login`). -/
theorem claim_C10_bug :
    (login_user cfg0 noFail 9 stKey "ann" "pw").result =
      .ok { id := 1, username := "ann", email := "ann@example.com",
            created_at := some "sk-secret-key", last_login := 5 } ∧
    (get_user_by_id noFail stKey 1).result =
      some { id := 1, username := "ann", email := "ann@example.com",
             created_at := some "sk-secret-key", last_login := 5 } ∧
    rowKey.openai_api_key = some "sk-secret-key" := by
  exact ⟨by decide, by decide, by decide⟩

/-! ## Structure of the matched step block -/

/-- A list-marker token: a digit `1`-`9` followed by `.` or `)`, or a
single bullet `*`, `-`, `+`. -/
def IsMarkerToken (m : List Char) : Prop :=
  (∃ c d, m = [c, d] ∧ isDigit19 c = true ∧ (d = '.' ∨ d = ')')) ∨
  (∃ c, m = [c] ∧ isBullet c = true)

/-- One item of the step pattern, described declaratively: optional
white space (which may contain newlines, hence blank lines), a marker,
at least one white-space character, a run of non-newline characters, and
a final newline unless the input ended. -/
def IsItemSeg (seg : List Char) : Prop :=
  ∃ w m sp body tl,
    seg = w ++ m ++ sp ++ body ++ tl ∧
    (∀ c ∈ w, pySpace c = true) ∧ IsMarkerToken m ∧
    sp ≠ [] ∧ (∀ c ∈ sp, pySpace c = true) ∧
    (∀ c ∈ body, ¬ c = '\n') ∧ (tl = ['\n'] ∨ tl = [])

theorem dropWhile_head_not {α : Type} (p : α → Bool) :
    ∀ (l : List α) (c : α) (r : List α), l.dropWhile p = c :: r → p c = false := by
  intro l
  induction l with
  | nil => intro c r h; simp at h
  | cons a t ih =>
    intro c r h
    rw [List.dropWhile_cons] at h
    by_cases hp : p a = true
    · rw [if_pos hp] at h
      exact ih c r h
    · rw [if_neg hp] at h
      injection h with h1 _
      rw [← h1]
      exact Bool.eq_false_iff.mpr hp

theorem matchMarker_spec (l m r : List Char) (h : matchMarker l = some (m, r)) :
    m ++ r = l ∧ IsMarkerToken m := by
  match l with
  | [] => simp [matchMarker] at h
  | [c] =>
    replace h : (if isBullet c = true then some ([c], ([] : List Char)) else none)
        = some (m, r) := h
    by_cases hb : isBullet c = true
    · rw [if_pos hb] at h
      simp only [Option.some.injEq, Prod.mk.injEq] at h
      obtain ⟨rfl, rfl⟩ := h
      exact ⟨rfl, Or.inr ⟨c, rfl, hb⟩⟩
    · rw [if_neg hb] at h
      exact absurd h (by simp)
  | c :: d :: rest =>
    replace h : (if (isDigit19 c && (d = '.' || d = ')')) = true then some ([c, d], rest)
        else if isBullet c = true then some ([c], d :: rest) else none) = some (m, r) := h
    by_cases h1 : (isDigit19 c && (d = '.' || d = ')')) = true
    · rw [if_pos h1] at h
      simp only [Option.some.injEq, Prod.mk.injEq] at h
      obtain ⟨rfl, rfl⟩ := h
      rw [Bool.and_eq_true] at h1
      refine ⟨rfl, Or.inl ⟨c, d, rfl, h1.1, ?_⟩⟩
      have h2 := h1.2
      simp only [Bool.or_eq_true, decide_eq_true_eq] at h2
      exact h2
    · rw [if_neg h1] at h
      by_cases hb : isBullet c = true
      · rw [if_pos hb] at h
        simp only [Option.some.injEq, Prod.mk.injEq] at h
        obtain ⟨rfl, rfl⟩ := h
        exact ⟨rfl, Or.inr ⟨c, rfl, hb⟩⟩
      · rw [if_neg hb] at h
        exact absurd h (by simp)

theorem stepItem_spec (l seg rest : List Char) (h : stepItem l = some (seg, rest)) :
    seg ++ rest = l ∧ IsItemSeg seg ∧ seg ≠ [] := by
  unfold stepItem at h
  dsimp only at h
  rcases hm : matchMarker (l.dropWhile pySpace) with _ | ⟨m, l2⟩
  · rw [hm] at h
    simp at h
  · rw [hm] at h
    dsimp only at h
    by_cases hsp : (l2.takeWhile pySpace).isEmpty = true
    · rw [if_pos hsp] at h
      simp at h
    · rw [if_neg hsp] at h
      obtain ⟨hm1, hm2⟩ := matchMarker_spec _ _ _ hm
      have hmne : m ≠ [] := by
        rcases hm2 with ⟨c, d, rfl, _, _⟩ | ⟨c, rfl, _⟩ <;> simp
      have hw : ∀ c ∈ l.takeWhile pySpace, pySpace c = true :=
        fun c hc => List.mem_takeWhile_imp hc
      have hspw : ∀ c ∈ l2.takeWhile pySpace, pySpace c = true :=
        fun c hc => List.mem_takeWhile_imp hc
      have hspne : l2.takeWhile pySpace ≠ [] := by
        intro hcon
        rw [hcon] at hsp
        exact hsp rfl
      have hbody : ∀ c ∈ (l2.dropWhile pySpace).takeWhile (fun c => c ≠ '\n'), ¬ c = '\n' := by
        intro c hc
        have hx := List.mem_takeWhile_imp hc
        simpa using hx
      have e1 : l.takeWhile pySpace ++ l.dropWhile pySpace = l :=
        List.takeWhile_append_dropWhile pySpace l
      have e2 : l2.takeWhile pySpace ++ l2.dropWhile pySpace = l2 :=
        List.takeWhile_append_dropWhile pySpace l2
      have e3 : (l2.dropWhile pySpace).takeWhile (fun c => c ≠ '\n') ++
          (l2.dropWhile pySpace).dropWhile (fun c => c ≠ '\n') = l2.dropWhile pySpace :=
        List.takeWhile_append_dropWhile _ _
      rcases hd : (l2.dropWhile pySpace).dropWhile (fun c => c ≠ '\n') with _ | ⟨c0, rest0⟩
      · rw [hd] at h
        simp only [Option.some.injEq, Prod.mk.injEq] at h
        obtain ⟨rfl, rfl⟩ := h
        rw [hd, List.append_nil] at e3
        refine ⟨?_, ?_, ?_⟩
        · rw [List.append_nil, List.append_assoc, List.append_assoc, e3, e2, hm1, e1]
        · exact ⟨_, m, _, _, [], by simp, hw, hm2, hspne, hspw, hbody, Or.inr rfl⟩
        · intro hcon
          rcases List.append_eq_nil.mp hcon with ⟨h4, _⟩
          rcases List.append_eq_nil.mp (List.append_eq_nil.mp h4).1 with ⟨_, h5⟩
          exact hmne h5
      · rw [hd] at h
        simp only [Option.some.injEq, Prod.mk.injEq] at h
        obtain ⟨rfl, rfl⟩ := h
        have hc0 : c0 = '\n' := by
          have := dropWhile_head_not _ _ _ _ hd
          simpa using this
        refine ⟨?_, ?_, ?_⟩
        · subst hc0
          rw [hd] at e3
          rw [List.append_assoc, List.append_assoc, List.append_assoc,
            List.singleton_append]
          rw [e3, e2, List.append_assoc, hm1, e1]
        · exact ⟨_, m, _, _, ['\n'], by simp, hw, hm2, hspne, hspw, hbody, Or.inl rfl⟩
        · intro hcon
          rcases List.append_eq_nil.mp hcon with ⟨h4, _⟩
          rcases List.append_eq_nil.mp (List.append_eq_nil.mp h4).1 with ⟨h6, _⟩
          rcases List.append_eq_nil.mp h6 with ⟨_, h5⟩
          exact hmne h5

theorem stepRun_spec : ∀ (fuel : Nat) (l : List Char),
    (stepRun fuel l).1 ++ (stepRun fuel l).2 = l ∧
    ∃ segs : List (List Char), (stepRun fuel l).1 = segs.flatten ∧
      (∀ seg ∈ segs, IsItemSeg seg) ∧ ((stepItem l).isSome → 0 < fuel → segs ≠ [])
  | 0, l => by
      exact ⟨rfl, [], rfl, by simp, fun _ h => absurd h (by simp)⟩
  | fuel + 1, l => by
      rcases hit : stepItem l with _ | ⟨seg, rest⟩
      · have hrw : stepRun (fuel + 1) l = ([], l) := by
          simp only [stepRun, hit]
        rw [hrw]
        exact ⟨rfl, [], rfl, by simp, fun hs _ => absurd hs (by simp)⟩
      · have hrw : stepRun (fuel + 1) l =
            (seg ++ (stepRun fuel rest).1, (stepRun fuel rest).2) := by
          simp only [stepRun, hit]
        obtain ⟨happ, segs', hjoin, hall, _⟩ := stepRun_spec fuel rest
        obtain ⟨hsegrest, hseg, _⟩ := stepItem_spec l seg rest hit
        rw [hrw]
        refine ⟨?_, seg :: segs', ?_, ?_, fun _ _ => by simp⟩
        · dsimp only
          rw [List.append_assoc, happ, hsegrest]
        · dsimp only
          rw [List.flatten_cons, hjoin]
        · intro x hx
          rcases List.mem_cons.mp hx with rfl | hx'
          · exact hseg
          · exact hall x hx'

theorem searchStepAux_spec : ∀ (fuel : Nat) (l blk : List Char),
    searchStepAux fuel l = some blk →
    ∃ segs : List (List Char), segs ≠ [] ∧ blk = segs.flatten ∧ ∀ seg ∈ segs, IsItemSeg seg
  | 0, l, blk, h => by simp [searchStepAux] at h
  | fuel + 1, l, blk, h => by
      simp only [searchStepAux] at h
      by_cases hit : (stepItem l).isSome = true
      · rw [if_pos hit] at h
        obtain ⟨_, segs, hjoin, hall, hne⟩ := stepRun_spec (l.length + 1) l
        injection h with h'
        exact ⟨segs, hne hit (Nat.succ_pos _), by rw [← h', hjoin], hall⟩
      · rw [if_neg hit] at h
        rcases hdrop : l.dropWhile (fun c => c ≠ '\n') with _ | ⟨c0, rest⟩
        · rw [hdrop] at h
          simp at h
        · rw [hdrop] at h
          exact searchStepAux_spec fuel rest blk h

/-- Split a character list on `'\n'` — the physical lines of a text. -/
def splitNlAux : List Char → List Char → List (List Char)
  | [], acc => [acc.reverse]
  | c :: rest, acc =>
    if c = '\n' then acc.reverse :: splitNlAux rest []
    else splitNlAux rest (c :: acc)

/-- The physical lines of a character list. -/
def splitNl (l : List Char) : List (List Char) := splitNlAux l []

/-- The property asserted by claim C3, as a decidable check on one input:
inside the matched step block no empty or whitespace-only line sits
between two list-item lines. -/
def noBlankBetweenItems (l : List Char) : Bool :=
  match matchedBlock l with
  | none => true
  | some blk =>
    let ls := splitNl blk
    !((List.range ls.length).any fun i =>
        (ls.getD i []).all pySpace &&
        ((List.range i).any fun j => listItemStart (ls.getD j [])) &&
        ((List.range (ls.length - (i + 1))).any fun k =>
          listItemStart (ls.getD (i + 1 + k) [])))

/-- C3 counterexample: on `"1. a\n\n2. b"` the leading `\s*` of the step
pattern absorbs the blank line, so the matched block is the whole text and
an empty line lies strictly between the two list-item lines — the claimed
no-blank-line property is false. -/
theorem claim_C3_counterexample :
    matchedBlock ("1. a\n\n2. b").data = some ("1. a\n\n2. b").data ∧
    splitNl ("1. a\n\n2. b").data = [("1. a").data, [], ("2. b").data] ∧
    noBlankBetweenItems ("1. a\n\n2. b").data = false := by
  exact ⟨by decide, by decide, by decide⟩

/-- C3 amended: the matched step block is a non-empty concatenation of
step items, where each item consists of optional white space (which may
itself span newlines, and hence blank lines), a list marker, at least one
white-space character, a run of non-newline characters, and a final
newline unless the input ended; so whitespace-only lines can occur inside
the block between list-item lines, but only as leading white space of an
item. -/
theorem claim_C3_amended (s : String) (blk : List Char)
    (h : matchedBlock s.data = some blk) :
    ∃ segs : List (List Char), segs ≠ [] ∧ blk = segs.flatten ∧
      ∀ seg ∈ segs, IsItemSeg seg :=
  searchStepAux_spec (s.data.length + 1) s.data blk h

theorem claim_C3_witness :
    matchedBlock ("1. one\n- two").data = some ("1. one\n- two").data ∧
    ∃ segs : List (List Char), segs ≠ [] ∧ ("1. one\n- two").data = segs.flatten ∧
      ∀ seg ∈ segs, IsItemSeg seg :=
  ⟨by decide, claim_C3_amended "1. one\n- two" ("1. one\n- two").data (by decide)⟩

/-! ## Non-emptiness of the parsed fields -/

theorem pySpace_not_marker (c : Char) (h : pySpace c = true) :
    isDigit19 c = false ∧ isBullet c = false := by
  have hlist : ∀ x ∈ pySpaceChars, isDigit19 x = false ∧ isBullet x = false := by decide
  unfold pySpace at h
  rw [Bool.or_eq_true] at h
  rcases h with h | h
  · exact hlist c (by simpa using h)
  · rw [Bool.and_eq_true, decide_eq_true_eq, decide_eq_true_eq] at h
    constructor
    · by_contra hd
      rw [Bool.not_eq_false, isDigit19, Bool.and_eq_true,
        decide_eq_true_eq, decide_eq_true_eq] at hd
      exact absurd (le_trans h.1 hd.2) (by decide)
    · by_contra hb
      rw [Bool.not_eq_false, isBullet] at hb
      simp only [Bool.or_eq_true, decide_eq_true_eq] at hb
      rcases hb with (rfl | rfl) | rfl
      · exact absurd h.1 (by decide)
      · exact absurd h.1 (by decide)
      · exact absurd h.1 (by decide)

theorem pyStripList_eq_nil (l : List Char) (h : pyStripList l = []) :
    ∀ c ∈ l, pySpace c = true := by
  unfold pyStripList at h
  rw [List.reverse_eq_nil_iff, List.dropWhile_eq_nil_iff] at h
  intro c hc
  rcases List.mem_append.mp
      ((List.takeWhile_append_dropWhile pySpace l).symm ▸ hc) with h1 | h2
  · exact List.mem_takeWhile_imp h1
  · exact h c (List.mem_reverse.mpr h2)

/-- Every marker token contains a non-whitespace character. -/
theorem markerToken_has_nonspace (m : List Char) (h : IsMarkerToken m) :
    ∃ c ∈ m, pySpace c = false := by
  rcases h with ⟨c, d, rfl, hc, _⟩ | ⟨c, rfl, hc⟩
  · refine ⟨c, by simp, ?_⟩
    by_contra hs
    rw [Bool.not_eq_false] at hs
    exact absurd (pySpace_not_marker c hs).1 (by rw [hc]; simp)
  · refine ⟨c, by simp, ?_⟩
    by_contra hs
    rw [Bool.not_eq_false] at hs
    exact absurd (pySpace_not_marker c hs).2 (by rw [hc]; simp)

/-- The stripped matched block is never empty: the block contains a
marker character, which is not white space. -/
theorem strip_matchedBlock_ne_nil (l blk : List Char)
    (h : matchedBlock l = some blk) : pyStripList blk ≠ [] := by
  obtain ⟨segs, hne, hflat, hall⟩ := searchStepAux_spec (l.length + 1) l blk h
  rcases segs with _ | ⟨seg0, rest⟩
  · exact absurd rfl hne
  obtain ⟨w, m, sp, body, tl, hsegeq, _, hmark, _, _, _, _⟩ := hall seg0 (by simp)
  obtain ⟨c, hcm, hcs⟩ := markerToken_has_nonspace m hmark
  have hcseg : c ∈ seg0 := by
    rw [hsegeq]
    simp [hcm]
  have hcblk : c ∈ blk := by
    rw [hflat, List.flatten_cons]
    exact List.mem_append.mpr (Or.inl hcseg)
  intro hstrip
  have := pyStripList_eq_nil blk hstrip c hcblk
  rw [this] at hcs
  exact absurd hcs (by simp)

theorem mk_ne_empty (l : List Char) (h : l ≠ []) : (⟨l⟩ : String) ≠ "" := by
  intro hcon
  have hd : l = ("" : String).data := congrArg String.data hcon
  exact h (by simpa using hd)

theorem paragraphsL_mem (l q : List Char) (h : q ∈ paragraphsL l) : q ≠ [] := by
  unfold paragraphsL at h
  rw [List.mem_filterMap] at h
  obtain ⟨p, _, hp⟩ := h
  dsimp only at hp
  by_cases he : (pyStripList p).isEmpty = true
  · rw [if_pos he] at hp
    simp at hp
  · rw [if_neg he] at hp
    injection hp with hq
    rw [← hq]
    intro hcon
    rw [hcon] at he
    exact he rfl

theorem getLastD_mem_of_ne_nil {α : Type} (l : List α) (a : α) (h : l ≠ []) :
    l.getLastD a ∈ l := by
  rw [List.getLastD_eq_getLast?]
  rcases hl : l.getLast? with _ | x
  · rw [List.getLast?_eq_none_iff] at hl
    exact absurd hl h
  · simpa using List.mem_of_getLast?_eq_some hl

theorem joinBlankSep_ne_nil (p : List Char) (ps : List (List Char)) (hp : p ≠ []) :
    joinBlankSep (p :: ps) ≠ [] := by
  cases ps with
  | nil => exact hp
  | cons q rest =>
    rw [joinBlankSep]
    simp [hp]

/-- C4 counterexample: on the empty raw completion text the parsing logic
returns `steps = ""`, so `steps` is not always a non-empty string. -/
theorem claim_C4_counterexample :
    (decompose "").steps = "" ∧ (decompose "").encouragement ≠ "" := by
  exact ⟨by decide, by decide⟩

/-- C4 amended: `encouragement` is always non-empty, and `steps` is
non-empty for every input except the empty string, where the N = 0 branch
copies the raw text and `steps` is `""`. -/
theorem claim_C4_amended (s : String) :
    (decompose s).encouragement ≠ "" ∧ ((decompose s).steps = "" ↔ s = "") := by
  by_cases hs : s = ""
  · subst hs
    exact ⟨by decide, by decide⟩
  · have hsd : s.data ≠ [] := by
      intro hcon
      apply hs
      cases s with
      | mk d =>
        replace hcon : d = [] := hcon
        subst hcon
        rfl
    suffices hboth : (decompose s).encouragement ≠ "" ∧ (decompose s).steps ≠ "" from
      ⟨hboth.1, iff_of_false hboth.2 hs⟩
    rcases hm : matchedBlock s.data with _ | blk
    · rcases hp : paragraphsL s.data with _ | ⟨p, ps'⟩
      · have hres : decompose s =
            { steps := ⟨s.data⟩, encouragement := "Remember to take it one step at a time." } := by
          simp only [decompose, decomposeL, hm, hp]
          norm_num
        rw [hres]
        refine ⟨?_, mk_ne_empty _ hsd⟩
        show "Remember to take it one step at a time." ≠ ""
        decide
      · rcases hq : ps' with _ | ⟨q, ps''⟩
        · subst hq
          have hres : decompose s =
              { steps := "No specific steps identified.", encouragement := ⟨s.data⟩ } := by
            simp only [decompose, decomposeL, hm, hp]
            norm_num
          rw [hres]
          refine ⟨mk_ne_empty _ hsd, ?_⟩
          show "No specific steps identified." ≠ ""
          decide
        · subst hq
          have hres : decompose s =
              { steps := ⟨List.intercalate ['\n', '\n'] (p :: q :: ps'').dropLast⟩,
                encouragement := ⟨(p :: q :: ps'').getLast?.getD []⟩ } := by
            simp only [decompose, decomposeL, hm, hp]
            norm_num
          rw [hres]
          constructor
          · apply mk_ne_empty
            apply paragraphsL_mem s.data
            rw [hp, ← List.getLastD_eq_getLast?]
            exact getLastD_mem_of_ne_nil _ _ (by simp)
          · apply mk_ne_empty
            rw [intercalate_eq_joinBlankSep, List.dropLast_cons₂]
            apply joinBlankSep_ne_nil
            apply paragraphsL_mem s.data
            rw [hp]
            simp
    · rcases hp : paragraphsL s.data with _ | ⟨p, ps'⟩
      · have hres : decompose s =
            { steps := ⟨s.data⟩, encouragement := "Remember to take it one step at a time." } := by
          simp only [decompose, decomposeL, hm, hp]
          norm_num
        rw [hres]
        refine ⟨?_, mk_ne_empty _ hsd⟩
        show "Remember to take it one step at a time." ≠ ""
        decide
      · rcases hq : ps' with _ | ⟨q, ps''⟩
        · subst hq
          have hres : decompose s =
              { steps := ⟨s.data⟩,
                encouragement := "Just taking the first step is progress!" } := by
            simp only [decompose, decomposeL, hm, hp]
            norm_num
          rw [hres]
          refine ⟨?_, mk_ne_empty _ hsd⟩
          show "Just taking the first step is progress!" ≠ ""
          decide
        · subst hq
          have hres : decompose s =
              { steps := ⟨pyStripList blk⟩,
                encouragement :=
                  if listItemStart ((p :: q :: ps'').getLast?.getD [])
                  then "Focus on that first step, you can do it!"
                  else ⟨(p :: q :: ps'').getLast?.getD []⟩ } := by
            simp only [decompose, decomposeL, hm, hp]
            norm_num
          rw [hres]
          constructor
          · by_cases hli : listItemStart ((p :: q :: ps'').getLast?.getD []) = true
            · rw [if_pos hli]
              show "Focus on that first step, you can do it!" ≠ ""
              decide
            · rw [if_neg hli]
              apply mk_ne_empty
              apply paragraphsL_mem s.data
              rw [hp, ← List.getLastD_eq_getLast?]
              exact getLastD_mem_of_ne_nil _ _ (by simp)
          · exact mk_ne_empty _ (strip_matchedBlock_ne_nil s.data blk hm)

/-! ## Paragraph splitting on trimmed input (claim C6) -/

theorem stripped_facts (l : List Char) (h : pyStripList l = l) :
    l.dropWhile pySpace = l ∧ l.reverse.dropWhile pySpace = l.reverse := by
  have hlen := congrArg List.length h
  unfold pyStripList at hlen
  rw [List.length_reverse] at hlen
  have h1 : ((l.dropWhile pySpace).reverse.dropWhile pySpace).length ≤
      (l.dropWhile pySpace).reverse.length :=
    (List.dropWhile_suffix pySpace).sublist.length_le
  have h2 : (l.dropWhile pySpace).length ≤ l.length :=
    (List.dropWhile_suffix pySpace).sublist.length_le
  rw [List.length_reverse] at h1
  have hXlen : (l.dropWhile pySpace).length = l.length := by omega
  have hX : l.dropWhile pySpace = l :=
    (List.dropWhile_suffix pySpace).sublist.eq_of_length hXlen
  refine ⟨hX, ?_⟩
  have hYlen : ((l.dropWhile pySpace).reverse.dropWhile pySpace).length =
      (l.dropWhile pySpace).reverse.length := by
    rw [List.length_reverse]
    omega
  have hY := (List.dropWhile_suffix pySpace).sublist.eq_of_length hYlen
  rw [hX] at hY
  exact hY

theorem endsNonWs_tail (c : Char) (rest : List Char)
    (h : ∀ x, (c :: rest).getLast? = some x → pySpace x = false) :
    ∀ x, rest.getLast? = some x → pySpace x = false := by
  intro x hx
  cases rest with
  | nil => simp at hx
  | cons b t =>
    apply h
    rw [List.getLast?_cons_cons]
    exact hx

theorem endsNonWs_drop (n : Nat) (l : List Char)
    (h : ∀ x, l.getLast? = some x → pySpace x = false) :
    ∀ x, (l.drop n).getLast? = some x → pySpace x = false := by
  induction n generalizing l with
  | zero => exact h
  | succ k ih =>
    cases l with
    | nil => intro x hx; simp at hx
    | cons c rest =>
      rw [List.drop_succ_cons]
      exact ih rest (endsNonWs_tail c rest h)

theorem takeWhile_dropWhile_nil (p : Char → Bool) (l : List Char) :
    (l.dropWhile p).takeWhile p = [] := by
  rcases hd : l.dropWhile p with _ | ⟨c, t⟩
  · rfl
  · rw [List.takeWhile_cons, dropWhile_head_not p l c t hd]
    rfl

theorem dropWhile_dropWhile_self (p : Char → Bool) (l : List Char) :
    (l.dropWhile p).dropWhile p = l.dropWhile p := by
  rcases hd : l.dropWhile p with _ | ⟨c, t⟩
  · rfl
  · rw [List.dropWhile_cons, dropWhile_head_not p l c t hd]
    rfl

/-- What one paragraph-delimiter match leaves behind, assuming the whole
input does not end in white space: strictly shorter input, a newline-free
leading white-space run, a non-white-space character after it, and the
ends-in-non-white-space property preserved. -/
theorem blankDelim_spec (l rest2 : List Char)
    (h : blankDelim l = some rest2)
    (hend : ∀ x, l.getLast? = some x → pySpace x = false) :
    rest2.length < l.length ∧
    (∀ x ∈ rest2.takeWhile pySpace, ¬ x = '\n') ∧
    rest2.dropWhile pySpace ≠ [] ∧
    (∀ x, rest2.getLast? = some x → pySpace x = false) := by
  match l with
  | [] => simp [blankDelim] at h
  | c :: rest =>
    replace h : (if c = '\n' then
        if ((rest.takeWhile pySpace).reverse.dropWhile (fun x => x ≠ '\n')).reverse.isEmpty
        then none
        else some (rest.drop
          ((rest.takeWhile pySpace).reverse.dropWhile (fun x => x ≠ '\n')).reverse.length)
        else none) = some rest2 := h
    by_cases hc : c = '\n'
    · rw [if_pos hc] at h
      subst hc
      set run := rest.takeWhile pySpace with hrun
      set core := (run.reverse.dropWhile (fun x => x ≠ '\n')).reverse with hcore
      by_cases hemp : core.isEmpty = true
      · rw [if_pos hemp] at h
        simp at h
      · rw [if_neg hemp] at h
        injection h with h
        subst h
        have hcorene : core ≠ [] := by
          intro hcon
          rw [hcon] at hemp
          exact hemp rfl
        -- run = core ++ afterCore
        have hsplit : run = core ++ (run.reverse.takeWhile (fun x => x ≠ '\n')).reverse := by
          have h0 := List.takeWhile_append_dropWhile (fun x => x ≠ '\n') run.reverse
          have h1 := congrArg List.reverse h0
          rw [List.reverse_append, List.reverse_reverse] at h1
          exact h1.symm
        set afterCore := (run.reverse.takeWhile (fun x => x ≠ '\n')).reverse with hafter
        have hafterNl : ∀ x ∈ afterCore, ¬ x = '\n' := by
          intro x hx
          have hx' : x ∈ run.reverse.takeWhile (fun x => x ≠ '\n') :=
            List.mem_reverse.mp hx
          have := List.mem_takeWhile_imp hx'
          simpa using this
        have hrunWs : ∀ x ∈ run, pySpace x = true := fun x hx =>
          List.mem_takeWhile_imp hx
        have hafterWs : ∀ x ∈ afterCore, pySpace x = true := by
          intro x hx
          apply hrunWs
          rw [hsplit]
          exact List.mem_append.mpr (Or.inr hx)
        have hrest : run ++ rest.dropWhile pySpace = rest :=
          List.takeWhile_append_dropWhile pySpace rest
        -- rest2 as a concatenation
        have hrest2 : rest.drop core.length = afterCore ++ rest.dropWhile pySpace := by
          conv_lhs => rw [← hrest, hsplit]
          rw [List.append_assoc]
          exact List.drop_left' rfl
        -- the input cannot be all white space
        have htailne : rest.dropWhile pySpace ≠ [] := by
          intro hcon
          rw [hcon, List.append_nil] at hrest
          have hall : ∀ x ∈ '\n' :: rest, pySpace x = true := by
            intro x hx
            rcases List.mem_cons.mp hx with rfl | hx'
            · decide
            · exact hrunWs x (by rw [hrest]; exact hx')
          have hne : ('\n' :: rest) ≠ [] := by simp
          rcases hlast : ('\n' :: rest).getLast? with _ | y
          · rw [List.getLast?_eq_none_iff] at hlast
            exact hne hlast
          · have hy := hall y (List.mem_of_getLast?_eq_some hlast)
            rw [hend y hlast] at hy
            exact absurd hy (by simp)
        refine ⟨?_, ?_, ?_, ?_⟩
        · have := List.length_drop core.length rest
          have hclen : 0 < core.length := List.length_pos.mpr hcorene
          have : (rest.drop core.length).length = rest.length - core.length := this
          simp only [List.length_cons]
          omega
        · intro x hx
          rw [hrest2, List.takeWhile_append_of_pos hafterWs,
            takeWhile_dropWhile_nil, List.append_nil] at hx
          exact hafterNl x hx
        · rw [hrest2, List.dropWhile_append_of_pos hafterWs,
            dropWhile_dropWhile_self]
          exact htailne
        · have hrest2' : rest.drop core.length = ('\n' :: rest).drop (core.length + 1) := rfl
          rw [hrest2']
          exact endsNonWs_drop (core.length + 1) ('\n' :: rest) hend
    · rw [if_neg hc] at h
      simp at h

theorem splitBlankAux_ne_nil : ∀ (fuel : Nat) (l acc : List Char),
    splitBlankAux fuel l acc ≠ []
  | 0, l, acc => by simp [splitBlankAux]
  | fuel + 1, l, acc => by
    cases l with
    | nil => simp [splitBlankAux]
    | cons c rest =>
      rcases hd : blankDelim (c :: rest) with _ | rest2
      · have hrw : splitBlankAux (fuel + 1) (c :: rest) acc =
            splitBlankAux fuel rest (c :: acc) := by
          simp only [splitBlankAux, hd]
        rw [hrw]
        exact splitBlankAux_ne_nil fuel rest (c :: acc)
      · have hrw : splitBlankAux (fuel + 1) (c :: rest) acc =
            acc.reverse :: splitBlankAux fuel rest2 [] := by
          simp only [splitBlankAux, hd]
        rw [hrw]
        simp

theorem splitBlankAux_single : ∀ (fuel : Nat) (l acc : List Char),
    (splitBlankAux fuel l acc).length = 1 →
    splitBlankAux fuel l acc = [acc.reverse ++ l]
  | 0, _, _, _ => rfl
  | fuel + 1, l, acc, h => by
    cases l with
    | nil => simp [splitBlankAux]
    | cons c rest =>
      rcases hd : blankDelim (c :: rest) with _ | rest2
      · have hrw : splitBlankAux (fuel + 1) (c :: rest) acc =
            splitBlankAux fuel rest (c :: acc) := by
          simp only [splitBlankAux, hd]
        rw [hrw] at h ⊢
        rw [splitBlankAux_single fuel rest (c :: acc) h]
        simp
      · have hrw : splitBlankAux (fuel + 1) (c :: rest) acc =
            acc.reverse :: splitBlankAux fuel rest2 [] := by
          simp only [splitBlankAux, hd]
        rw [hrw] at h
        rw [List.length_cons] at h
        exact absurd (List.length_eq_zero.mp (by omega))
          (splitBlankAux_ne_nil fuel rest2 [])

/-- Invariant of the split scanner on input that does not end in white
space: every produced piece contains a non-white-space character,
provided either the accumulated piece already has one, or the remaining
input starts with a newline-free white-space run followed by a
non-white-space character. -/
theorem splitBlankAux_pieces : ∀ (fuel : Nat) (l acc : List Char),
    l.length ≤ fuel →
    (∀ x, l.getLast? = some x → pySpace x = false) →
    ((∃ c ∈ acc, pySpace c = false) ∨
      ((∀ x ∈ l.takeWhile pySpace, ¬ x = '\n') ∧ l.dropWhile pySpace ≠ [])) →
    ∀ piece ∈ splitBlankAux fuel l acc, ∃ c ∈ piece, pySpace c = false
  | 0, l, acc, hlen, _, hinv => by
    have hl : l = [] := List.eq_nil_of_length_eq_zero (Nat.le_zero.mp hlen)
    subst hl
    intro piece hpiece
    rw [show splitBlankAux 0 [] acc = [acc.reverse ++ []] from rfl] at hpiece
    rw [List.mem_singleton] at hpiece
    subst hpiece
    rcases hinv with ⟨c, hc, hcs⟩ | ⟨_, hne⟩
    · exact ⟨c, by simp [hc], hcs⟩
    · exact absurd rfl hne
  | fuel + 1, l, acc, hlen, hend, hinv => by
    cases l with
    | nil =>
      intro piece hpiece
      rw [show splitBlankAux (fuel + 1) [] acc = [acc.reverse] from rfl] at hpiece
      rw [List.mem_singleton] at hpiece
      subst hpiece
      rcases hinv with ⟨c, hc, hcs⟩ | ⟨_, hne⟩
      · exact ⟨c, by simp [hc], hcs⟩
      · exact absurd rfl hne
    | cons c rest =>
      rcases hd : blankDelim (c :: rest) with _ | rest2
      · have hrw : splitBlankAux (fuel + 1) (c :: rest) acc =
            splitBlankAux fuel rest (c :: acc) := by
          simp only [splitBlankAux, hd]
        rw [hrw]
        apply splitBlankAux_pieces fuel rest (c :: acc)
          (by simp only [List.length_cons] at hlen; omega)
          (endsNonWs_tail c rest hend)
        rcases hinv with ⟨x, hx, hxs⟩ | ⟨hall, hne⟩
        · exact Or.inl ⟨x, by simp [hx], hxs⟩
        · by_cases hcs : pySpace c = true
          · refine Or.inr ⟨?_, ?_⟩
            · intro x hx
              apply hall
              rw [List.takeWhile_cons, hcs]
              simp [hx]
            · rw [List.dropWhile_cons, hcs] at hne
              simpa using hne
          · exact Or.inl ⟨c, by simp, Bool.eq_false_iff.mpr hcs⟩
      · have hrw : splitBlankAux (fuel + 1) (c :: rest) acc =
            acc.reverse :: splitBlankAux fuel rest2 [] := by
          simp only [splitBlankAux, hd]
        rw [hrw]
        obtain ⟨hlt, hnl2, hne2, hend2⟩ := blankDelim_spec (c :: rest) rest2 hd hend
        have hcnl : c = '\n' := by
          by_contra hc
          replace hd : (if c = '\n' then
              (if ((rest.takeWhile pySpace).reverse.dropWhile
                    (fun x => x ≠ '\n')).reverse.isEmpty = true
               then none
               else some (rest.drop ((rest.takeWhile pySpace).reverse.dropWhile
                    (fun x => x ≠ '\n')).reverse.length))
              else none) = some rest2 := hd
          rw [if_neg hc] at hd
          simp at hd
        have hacc : ∃ x ∈ acc, pySpace x = false := by
          rcases hinv with hl | ⟨hall, _⟩
          · exact hl
          · exfalso
            subst hcnl
            have hmem : '\n' ∈ ('\n' :: rest).takeWhile pySpace := by
              rw [List.takeWhile_cons]
              rw [show pySpace '\n' = true from by decide]
              simp
            exact hall '\n' hmem rfl
        intro piece hpiece
        rcases List.mem_cons.mp hpiece with rfl | hpiece2
        · obtain ⟨x, hx, hxs⟩ := hacc
          exact ⟨x, by simp [hx], hxs⟩
        · exact splitBlankAux_pieces fuel rest2 []
            (by simp only [List.length_cons] at hlen hlt ⊢; omega)
            hend2 (Or.inr ⟨hnl2, hne2⟩) piece hpiece2

theorem length_filterMap_all_some {α β : Type} (f : α → Option β) :
    ∀ l : List α, (∀ a ∈ l, (f a).isSome = true) →
    (l.filterMap f).length = l.length
  | [], _ => rfl
  | a :: t, h => by
    rcases hf : f a with _ | b
    · have hsome := h a (by simp)
      rw [hf] at hsome
      simp at hsome
    · rw [List.filterMap_cons, hf]
      dsimp only
      rw [List.length_cons, List.length_cons,
        length_filterMap_all_some f t (fun x hx => h x (by simp [hx]))]

/-- On input equal to its own trim, a single surviving paragraph must be
the whole input: no split delimiter fired and nothing was filtered out. -/
theorem paragraphs_single_of_stripped (l p : List Char)
    (hstrip : pyStripList l = l) (hp : paragraphsL l = [p]) : p = l := by
  have hlnil : l ≠ [] := by
    intro hcon
    subst hcon
    rw [show paragraphsL [] = ([] : List (List Char)) from by decide] at hp
    simp at hp
  obtain ⟨hdrop, hdroprev⟩ := stripped_facts l hstrip
  have htake : l.takeWhile pySpace = [] := by
    have happ := List.takeWhile_append_dropWhile pySpace l
    rw [hdrop] at happ
    have hlen := congrArg List.length happ
    rw [List.length_append] at hlen
    exact List.eq_nil_of_length_eq_zero (by omega)
  have hends : ∀ x, l.getLast? = some x → pySpace x = false := by
    intro x hx
    rcases hrev : l.reverse with _ | ⟨c, t⟩
    · rw [List.reverse_eq_nil_iff] at hrev
      exact absurd hrev hlnil
    · have hc : pySpace c = false := by
        apply dropWhile_head_not pySpace l.reverse c t
        rw [hdroprev, hrev]
      have hlast : l.getLast? = some c := by
        rw [← List.head?_reverse, hrev]
        rfl
      rw [hlast] at hx
      injection hx with hx
      subst hx
      exact hc
  have hpieces : ∀ piece ∈ splitBlank l, ∃ c ∈ piece, pySpace c = false := by
    apply splitBlankAux_pieces (l.length + 1) l [] (by omega) hends
    refine Or.inr ⟨?_, ?_⟩
    · rw [htake]
      intro x hx
      simp at hx
    · rw [hdrop]
      exact hlnil
  have hsome : ∀ piece ∈ splitBlank l,
      ((fun q0 => if (pyStripList q0).isEmpty then none
        else some (pyStripList q0)) piece).isSome = true := by
    intro piece hpiece
    obtain ⟨c, hc, hcs⟩ := hpieces piece hpiece
    dsimp only
    by_cases he : (pyStripList piece).isEmpty = true
    · exfalso
      have hall := pyStripList_eq_nil piece (List.isEmpty_iff.mp he) c hc
      rw [hall] at hcs
      exact absurd hcs (by simp)
    · rw [if_neg he]
      rfl
  have hlenfm : (paragraphsL l).length = (splitBlank l).length :=
    length_filterMap_all_some _ (splitBlank l) hsome
  have hlen1 : (splitBlank l).length = 1 := by
    rw [hp] at hlenfm
    simpa using hlenfm.symm
  have hone : splitBlank l = [l] := by
    have h1 := splitBlankAux_single (l.length + 1) l [] hlen1
    rw [show ([] : List Char).reverse ++ l = l from by simp] at h1
    exact h1
  have hfl : (if (pyStripList l).isEmpty then none else some (pyStripList l)) = some l := by
    rw [hstrip]
    rw [if_neg (by simpa using hlnil)]
  unfold paragraphsL at hp
  rw [hone, List.filterMap_cons, hfl] at hp
  simp only [List.filterMap_nil] at hp
  injection hp with hp1 _
  exact hp1.symm

/-- C6: the decomposer's input is the completion text already trimmed of
surrounding white space (`message_content = ….strip()`, line 58); for such
input with exactly one non-empty paragraph, that paragraph is the whole
text, and the result is: when a step block was found, `steps` is the full
raw text with the fixed encouragement fallback; when none was found, the
fixed steps fallback with the single paragraph as encouragement. -/
theorem claim_C6 (s : String) (p : List Char)
    (hstrip : pyStripList s.data = s.data)
    (hp : paragraphsL s.data = [p]) :
    p = s.data ∧
    decompose s =
      (if (matchedBlock s.data).isSome then
        { steps := s, encouragement := "Just taking the first step is progress!" }
      else
        { steps := "No specific steps identified.", encouragement := ⟨p⟩ }) := by
  have hpl : p = s.data := paragraphs_single_of_stripped s.data p hstrip hp
  refine ⟨hpl, ?_⟩
  by_cases hm : (matchedBlock s.data).isSome = true
  · rw [if_pos hm]
    simp only [decompose, decomposeL, hp, hm]
    norm_num
  · rw [if_neg hm]
    have hm2 : matchedBlock s.data = none := Option.not_isSome_iff_eq_none.mp hm
    simp only [decompose, decomposeL, hp, hm2]
    norm_num
    rw [hpl]

theorem claim_C6_witness :
    pyStripList ("hello").data = ("hello").data ∧
    paragraphsL ("hello").data = [("hello").data] ∧
    (("hello").data = ("hello" : String).data ∧
      decompose "hello" =
        (if (matchedBlock ("hello").data).isSome then
          { steps := "hello", encouragement := "Just taking the first step is progress!" }
        else
          { steps := "No specific steps identified.",
            encouragement := ⟨("hello").data⟩ })) :=
  ⟨by decide, by decide, claim_C6 "hello" ("hello").data (by decide) (by decide)⟩

/-! ## Behaviour checks against the reference implementation

Concrete evaluations of the model, cross-checked against the behaviour of
the Python source on the same inputs. -/
example : decompose "" =
    { steps := "", encouragement := "Remember to take it one step at a time." } := by decide
example : decompose "hello" =
    { steps := "No specific steps identified.", encouragement := "hello" } := by decide
example : decompose "1. a\n\n2. b" =
    { steps := "1. a\n\n2. b",
      encouragement := "Focus on that first step, you can do it!" } := by decide
example : decompose "First paragraph\n\nSecond one\n\nlast words" =
    { steps := "First paragraph\n\nSecond one", encouragement := "last words" } := by decide
example : decompose "1. do it" =
    { steps := "1. do it", encouragement := "Just taking the first step is progress!" } := by decide
example : matchedBlock ("1. a\n\n2. b").data = some ("1. a\n\n2. b").data := by decide
example : decompose "1. Open the file\n2. Read line one\n\nYou have it" =
    { steps := "1. Open the file\n2. Read line one",
      encouragement := "You have it" } := by decide
example : matchedBlock ("x\n \n  1. a").data = some (" \n  1. a").data := by decide
example : matchedBlock ("1. \nfoo\nbar").data = some ("1. \nfoo\n").data := by decide
example : matchedBlock ("a \n \n b").data = none := by decide
example : matchedBlock ("*x").data = none := by decide
example : matchedBlock ("9) x\n- y\n\nok").data = some ("9) x\n- y\n").data := by decide
example : matchedBlock ("1.x").data = none := by decide
example : splitBlank ("a \n \n b").data = [("a ").data, (" b").data] := by decide
example : splitBlank ("a\n\n\nb").data = [("a").data, ("b").data] := by decide
example : splitBlank ("a\n\n \n\nb").data = [("a").data, ("b").data] := by decide
example : splitBlank ("x\n \n  1. a").data = [("x").data, ("  1. a").data] := by decide
example : decompose "1) x\n\n2) y\n\n- z" =
    { steps := "1) x\n\n2) y\n\n- z",
      encouragement := "Focus on that first step, you can do it!" } := by decide
